import Mathlib

/-!
Verification of the file-path-completion core (indexing, fuzzy scoring,
caching) against its natural-language specification.

The TypeScript sources are shallowly embedded:

* JavaScript numbers are modelled as `ℚ` (every score computed by the code
  is a rational; `NaN` corner cases are noted where they arise and modelled
  by their observable effect).
* JavaScript strings are modelled as `String` operating on `.data`
  (`List Char`); the code only ever manipulates ASCII paths and patterns,
  so `toLowerCase` is modelled on the ASCII range.
* Filesystem trees are an inductive type whose directory listings are
  fused into the tree, so the recursive directory walk is structurally
  recursive: every call descends into a subdirectory listing or the
  remaining sibling entries, which is itself the termination argument of
  the source recursion.
* The JavaScript `RegExp` engine is external to the repository; it is
  abstracted as a `RegexEngine` parameter (a compile-success predicate and
  a match function), which is all the embedded matchers depend on.
-/

set_option maxHeartbeats 2000000

/-! ## Basic string / character utilities (JS semantics, ASCII range) -/

/-- JS `String.prototype.toLowerCase` restricted to ASCII (all inputs in
this codebase are ASCII paths/patterns). -/
def strToLower (s : String) : String := ⟨s.data.map Char.toLower⟩

/-- The regex `/[a-zA-Z0-9]/` test from `FuzzySearcher.isAlphanumeric`. -/
def isAlphanumeric (c : Char) : Bool :=
  ('a' ≤ c && c ≤ 'z') || ('A' ≤ c && c ≤ 'Z') || ('0' ≤ c && c ≤ '9')

/-- The `listLeads pre l` : `pre` is an initial run of `l` (JS `startsWith`). -/
def listLeads : List Char → List Char → Bool
  | [], _ => true
  | _ :: _, [] => false
  | p :: ps, c :: cs => p == c && listLeads ps cs

/-- JS `String.prototype.startsWith`. -/
def strLeads (s pre : String) : Bool := listLeads pre.data s.data

/-- The `containsSeq n h` : `n` occurs as a contiguous run inside `h`
(JS `String.prototype.includes`). -/
def containsSeq (n : List Char) : List Char → Bool
  | [] => n.isEmpty
  | c :: t => listLeads n (c :: t) || containsSeq n t

/-- JS `String.prototype.includes`. -/
def strContains (s sub : String) : Bool := containsSeq sub.data s.data

/-- The `s.data.contains c` — JS `includes` for a single character. -/
def strHasChar (s : String) (c : Char) : Bool := s.data.contains c

/-- JS `String.prototype.split` with a character-class separator:
empty fields are kept, `""` splits to `[""]`. -/
def splitChars (p : Char → Bool) : List Char → List (List Char)
  | [] => [[]]
  | c :: rest =>
    let r := splitChars p rest
    if p c then [] :: r
    else
      match r with
      | h :: t => (c :: h) :: t
      | [] => [[c]]

/-- String-level `split` on a character predicate. -/
def strSplitOnPred (s : String) (p : Char → Bool) : List String :=
  (splitChars p s.data).map (fun cs => ⟨cs⟩)

/-- Node `path.basename` (POSIX; callers never pass trailing separators). -/
def baseName (s : String) : String :=
  (strSplitOnPred s (fun c => c == '/')).getLastD ""

/-- Node `path.extname` on the POSIX basename: the substring from the last
`.`, or `""` when there is no dot or the dot is the first character. -/
def extName (s : String) : String :=
  let b := (baseName s).data
  let r := b.reverse
  let after := r.takeWhile (fun c => !(c == '.'))
  if after.length == r.length then ""
  else if b.length - after.length - 1 == 0 then ""
  else ⟨'.' :: after.reverse⟩

/-- JS `substring(1)` (ASCII). -/
def strDrop1 (s : String) : String := ⟨s.data.drop 1⟩

/-! ## `FuzzySearcher` (src/fuzzySearch.ts) -/

/-- The `FuzzyMatch` from src/fuzzySearch.ts. The source field `matches` is a
reserved word in Lean and is called `positions` here. -/
structure FuzzyMatch where
  path : String
  score : ℚ
  positions : List Nat
deriving Repr, DecidableEq

/-- The `normalizeForSearch`: strip every non-alphanumeric character, then
lower-case. -/
def normalizeForSearch (s : String) : String :=
  strToLower ⟨s.data.filter isAlphanumeric⟩

/-- The scoring walk of `fuzzyMatchString`: the query cursor advances on
each character equality against the (case-normalised) target; per match the
code adds a base point, a consecutive-run bonus (`consecutiveMatches`
starting at `-1 == 0 - 1`, so the very first match at index 0 also counts
as consecutive), a word-boundary bonus, and a changed-case bonus. Returns
(accumulated score, matched indices, unconsumed query). `t` carries
(original, lowered) character pairs; `prev` is the previous lowered
character. -/
def fuzzyWalk : List Char → List (Char × Char) → Nat → Int → Nat → Option Char →
    ℚ × List Nat × List Char
  | [], _, _, _, _, _ => (0, [], [])
  | q :: qs, [], _, _, _, _ => (0, [], q :: qs)
  | q :: qs, (orig, low) :: ts, idx, lastMatch, consec, prev =>
    if q == low then
      let isConsec := lastMatch == (idx : Int) - 1
      let consecNew := if isConsec then consec + 1 else 0
      let stepScore : ℚ := 1
        + (if isConsec then ((consec + 1 : Nat) : ℚ) * (1/2) else 0)
        + (if (match prev with | none => true | some p => !(isAlphanumeric p)) then 1 else 0)
        + (if orig != low then (1/2 : ℚ) else 0)
      let rest := fuzzyWalk qs ts (idx + 1) (idx : Int) consecNew (some low)
      (stepScore + rest.1, idx :: rest.2.1, rest.2.2)
    else
      fuzzyWalk (q :: qs) ts (idx + 1) lastMatch consec (some low)

/-- The `fuzzyMatchString`: run the walk; on full query consumption apply the
spread penalty `1 - (last - first) / target.length` and double on exact
(case-normalised) equality.

For an *empty* query the JS code returns a `NaN`-scored object (its spread
penalty indexes an empty array): that object never wins a score comparison
and poisons the per-segment sums, which the callers below model explicitly;
here the empty-query result is `none`. -/
def fuzzyMatchString (ci : Bool) (query target : String) : Option (ℚ × List Nat) :=
  if query.data.isEmpty then none
  else
    let searchTarget := if ci then strToLower target else target
    let pairs := List.zip target.data searchTarget.data
    let w := fuzzyWalk query.data pairs 0 (-1) 0 none
    if w.2.2.isEmpty then
      let first := w.2.1.headD 0
      let last := w.2.1.getLastD 0
      let penalty : ℚ := 1 - ((last : ℚ) - (first : ℚ)) / (target.data.length : ℚ)
      let score := w.1 * penalty
      let score := if query = searchTarget then score * 2 else score
      some (score, w.2.1)
    else none

/-- One segment-loop iteration state of `fuzzyMatchPathSegments`:
accumulate per-segment scores (filename segment weighted 1.5×) and
segment-relative positions shifted by the running character offset. -/
def segLoop (ci : Bool) (parts : List String) : List (String × String) → Nat → ℚ × List Nat
  | [], _ => (0, [])
  | (orig, low) :: rest, curIdx =>
    let partResults := parts.map (fun p => fuzzyMatchString ci p low)
    let segScore : ℚ := partResults.foldl
      (fun acc r => match r with | some t => acc + t.1 | none => acc) 0
    let segMatches : List Nat := partResults.foldl
      (fun acc r => match r with | some t => acc ++ t.2.map (· + curIdx) | none => acc) []
    let segScore := if rest.isEmpty && decide (0 < segScore) then segScore * (3/2) else segScore
    let restRes := segLoop ci parts rest (curIdx + orig.length + 1)
    (segScore + restRes.1, segMatches ++ restRes.2)

/-- The `fuzzyMatchPathSegments`: split the path on the separator, split the
query on `[\\/\-_.]`, and sum every query-part/segment match.

When some query part is empty, the JS code runs `fuzzyMatchString` with an
empty query against each segment and gets a `NaN` score, which contaminates every `segmentScore` and the
total, so `totalScore > 0` is false and the function returns null; that is
modelled by the explicit empty-part guard. -/
def fuzzyMatchPathSegments (ci : Bool) (query filePath : String) : Option (ℚ × List Nat) :=
  let segments := strSplitOnPred filePath (fun c => c == '/')
  let searchSegments := if ci then segments.map strToLower else segments
  let queryParts := strSplitOnPred query
    (fun c => c == '\\' || c == '/' || c == '-' || c == '_' || c == '.')
  if queryParts.any (fun p => p.data.isEmpty) then none
  else
    let res := segLoop ci queryParts (segments.zip searchSegments) 0
    if 0 < res.1 then some res else none

/-- The `fuzzyMatch`: best of filename match (×2), full-path match, and
per-segment match; null when the best score is not positive. -/
def fuzzyMatch (ci : Bool) (query filePath : String) : Option FuzzyMatch :=
  let searchPath := if ci then strToLower filePath else filePath
  let fileName := baseName searchPath
  let fileNameMatch := fuzzyMatchString ci query fileName
  let pathMatch := fuzzyMatchString ci query searchPath
  let pathSegmentMatch := fuzzyMatchPathSegments ci query filePath
  let best0 : ℚ × List Nat := (0, [])
  let best1 := match fileNameMatch with
    | some t => if best0.1 < t.1 * 2 then (t.1 * 2, t.2) else best0
    | none => best0
  let best2 := match pathMatch with
    | some t => if best1.1 < t.1 then t else best1
    | none => best1
  let best3 := match pathSegmentMatch with
    | some t => if best2.1 < t.1 then t else best2
    | none => best2
  if 0 < best3.1 then some ⟨filePath, best3.1, best3.2⟩ else none

/-- The `fuzzyMatchNormalized`: the symbol-stripped pass — normalised filename
(×3) against normalised path (×0.8). -/
def fuzzyMatchNormalized (ci : Bool) (normalizedQuery filePath : String) : Option FuzzyMatch :=
  if normalizedQuery.data.isEmpty then none
  else
    let fileName := baseName filePath
    let normalizedFileName := normalizeForSearch fileName
    let normalizedPath := normalizeForSearch filePath
    let fileNameMatch := fuzzyMatchString ci normalizedQuery normalizedFileName
    let pathMatch := fuzzyMatchString ci normalizedQuery normalizedPath
    let best0 : ℚ × List Nat := (0, [])
    let best1 := match fileNameMatch with
      | some t => if best0.1 < t.1 * 3 then (t.1 * 3, t.2) else best0
      | none => best0
    let best2 := match pathMatch with
      | some t => if best1.1 < t.1 * (4/5) then (t.1 * (4/5), t.2) else best1
      | none => best1
    if 0 < best2.1 then some ⟨filePath, best2.1, best2.2⟩ else none

/-- The per-path combination step of `FuzzySearcher.search`: the raw pass
against the normalised pass, the normalised one winning strict ties only
when strictly greater. -/
def pickBest : Option FuzzyMatch → Option FuzzyMatch → Option FuzzyMatch
  | none, none => none
  | none, some nm => some nm
  | some m, none => some m
  | some m, some nm => if m.score < nm.score then some nm else some m

/-- The combined raw/normalised match for one candidate path, with the
query preprocessing of `FuzzySearcher.search` applied by the caller. -/
def searchOne (ci : Bool) (searchQuery normalizedQuery filePath : String) : Option FuzzyMatch :=
  pickBest (fuzzyMatch ci searchQuery filePath)
    (fuzzyMatchNormalized ci normalizedQuery filePath)

/-- Insert into a score-descending list *after* any equal-scored entries:
this is exactly where a stable sort with comparator `b.score - a.score`
(JS `Array.prototype.sort`, stable per ES2019) places an element that
preceded them in the input. -/
def insertByScoreDesc (m : FuzzyMatch) : List FuzzyMatch → List FuzzyMatch
  | [] => [m]
  | x :: xs => if x.score ≤ m.score then m :: x :: xs else x :: insertByScoreDesc m xs

/-- Stable sort by descending score (models the JS stable
`sort((a, b) => b.score - a.score)`). -/
def sortByScoreDesc : List FuzzyMatch → List FuzzyMatch
  | [] => []
  | x :: xs => insertByScoreDesc x (sortByScoreDesc xs)

/-- The `FuzzySearcher.search`: empty query returns every candidate at score 0
in input order (capped); otherwise collect per-path best matches, sort by
descending score (stable) and cap. -/
def fuzzySearch (ci : Bool) (query : String) (filePaths : List String) (maxResults : Nat) :
    List FuzzyMatch :=
  if query.data.isEmpty then
    (filePaths.take maxResults).map (fun p => ⟨p, 0, []⟩)
  else
    let searchQuery := if ci then strToLower query else query
    let normalizedQuery := normalizeForSearch searchQuery
    let results := filePaths.filterMap (searchOne ci searchQuery normalizedQuery)
    (sortByScoreDesc results).take maxResults

/-- The `FuzzySearcher.getFileTypeWeight`: static extension weights. -/
def getFileTypeWeight (filePath : String) : ℚ :=
  let ext := strToLower (extName filePath)
  if ext ∈ [".ts", ".tsx", ".js", ".jsx", ".py", ".java", ".cpp", ".c", ".cs", ".go", ".rs"]
    then 6/5
  else if ext ∈ [".md", ".mdx", ".rst", ".txt"] then 11/10
  else if ext ∈ [".json", ".yaml", ".yml", ".toml", ".xml"] then 21/20
  else 1

/-! ## `FileScanner` pattern matching (src/fileScanner.ts)

The JS `RegExp` engine is outside this repository: the two `try { new
RegExp(...) } catch { ... }` sites are modelled by an abstract engine with
a compile-success predicate and a match function, which is everything the
embedded code observes about it. -/

/-- The observable behaviour of the external JS `RegExp` engine. -/
structure RegexEngine where
  compileOk : String → Bool
  run : String → String → Bool

/-- The `GitignorePattern` from src/fileScanner.ts. -/
structure GitignorePattern where
  pattern : String
  baseDir : String
deriving Repr, DecidableEq

/-- JS `substring(n)` (ASCII). -/
def strDropN (s : String) (n : Nat) : String := ⟨s.data.drop n⟩

/-- JS `slice(0, -1)`. -/
def strDropLast1 (s : String) : String := ⟨s.data.dropLast⟩

/-- JS `String.prototype.endsWith`. -/
def strTrails (s suf : String) : Bool := listLeads suf.data.reverse s.data.reverse

/-- The per-character escape step of the translation: prefix every regex
special character with a backslash. -/
def escapeRegexChars (s : List Char) : List Char :=
  s.foldr
    (fun c acc =>
      if c ∈ ['.', '+', '^', '$', '\x7b', '\x7d', '(', ')', '|', '[', ']', '\\']
        then '\\' :: c :: acc else c :: acc)
    []

/-- Left-to-right, non-overlapping replacement of every occurrence of `src`
by `tgt` (JS `replace` with a `/g` regex of a literal string). The fuel is
one per consumed character; the wrapper supplies the input length, which
suffices. -/
def replaceSeqF (src tgt : List Char) : Nat → List Char → List Char
  | _, [] => []
  | 0, l => l
  | f + 1, c :: rest =>
    if listLeads src (c :: rest) then
      tgt ++ replaceSeqF src tgt f (rest.drop (src.length - 1))
    else c :: replaceSeqF src tgt f rest

/-- The `replace` wrapper supplying adequate fuel. -/
def jsReplaceAll (src tgt l : List Char) : List Char := replaceSeqF src tgt l.length l

/-- The glob-to-regex-source translation chain shared by
`matchesGlobPattern` and `matchesGitignorePatternInternal`:
escape specials, protect `**`, `*` to `[^/]*`, `**` to `.*`,
`?` to `[^/]`. -/
def globTranslate (pattern : String) : String :=
  let l0 := escapeRegexChars pattern.data
  let l1 := jsReplaceAll "**".data "___DOUBLESTAR___".data l0
  let l2 := jsReplaceAll "*".data "[^/]*".data l1
  let l3 := jsReplaceAll "___DOUBLESTAR___".data ".*".data l2
  let l4 := jsReplaceAll "?".data "[^/]".data l3
  ⟨l4⟩

/-- The `matchesGlobPattern`: fast paths for the common `node_modules` / `.git`
patterns; wildcard-free patterns match exactly or as a path prefix; else
compile to a regex, and on compile failure fall back to substring
containment of the star-stripped pattern. -/
def matchesGlobPattern (eng : RegexEngine) (path pattern : String) : Bool :=
  if pattern == "**/node_modules" || pattern == "**/node_modules/**" then
    strContains path "node_modules"
  else if pattern == "**/.git" || pattern == "**/.git/**" then
    strContains path ".git"
  else if !(strHasChar pattern '*') && !(strHasChar pattern '?') then
    path == pattern || strLeads path (pattern ++ "/")
  else
    let src := "^" ++ globTranslate pattern ++ "$"
    if eng.compileOk src then eng.run src path
    else strContains path ⟨pattern.data.filter (fun c => !(c == '*'))⟩

/-- The `matchesGitignorePatternInternal`: wildcard-free patterns match exactly
or as a path prefix; else compile `'^' + pattern + '(/.*)?$'`, and on
compile failure return `false` (note: *not* the substring fallback of the
glob matcher). -/
def matchesGitignorePatternInternal (eng : RegexEngine) (path pattern : String) : Bool :=
  if !(strHasChar pattern '*') && !(strHasChar pattern '?') then
    path == pattern || strLeads path (pattern ++ "/")
  else
    let src := "^" ++ globTranslate pattern ++ "(/.*)?$"
    if eng.compileOk src then eng.run src path
    else false

/-- The `matchesGitignorePattern`: scope to `baseDir`, then the
directory-pattern / anchored / `**` / any-level cases of the source. -/
def matchesGitignorePattern (eng : RegexEngine) (relativePath : String)
    (gp : GitignorePattern) (isDirectory : Bool) : Bool :=
  let pattern := gp.pattern
  let baseDir := gp.baseDir
  if baseDir != "." && !(strLeads relativePath (baseDir ++ "/")) then false
  else
    let pathToCheck :=
      if baseDir == "." then relativePath else strDropN relativePath (baseDir.length + 1)
    if strTrails pattern "/" then
      if !isDirectory then false
      else
        let dirPattern := strDropLast1 pattern
        if strLeads dirPattern "**/" then
          let dirName := strDropN dirPattern 3
          (strSplitOnPred pathToCheck (fun c => c == '/')).getLastD "" == dirName
        else matchesGitignorePatternInternal eng pathToCheck dirPattern
    else if strLeads pattern "/" then
      matchesGitignorePatternInternal eng pathToCheck (strDrop1 pattern)
    else if strContains pattern "**/" then
      matchesGitignorePatternInternal eng pathToCheck pattern
    else if pathToCheck == pattern || strTrails pathToCheck ("/" ++ pattern) then true
    else if isDirectory && strContains (pathToCheck ++ "/") (pattern ++ "/") then true
    else matchesGitignorePatternInternal eng pathToCheck pattern

/-- The `shouldExcludePath`: any user exclude glob or any gitignore rule. -/
def shouldExcludePath (eng : RegexEngine) (relativePath : String)
    (excludePatterns : List String) (gitignorePatterns : List GitignorePattern)
    (isDirectory : Bool) : Bool :=
  excludePatterns.any (fun p => matchesGlobPattern eng relativePath p) ||
  gitignorePatterns.any (fun gp => matchesGitignorePattern eng relativePath gp isDirectory)

/-- The `shouldIncludeFile` from src/utils.ts: hide any path with a dot-leading
segment of length > 1 unless hidden files are shown. -/
def shouldIncludeFile (filePath : String) (showHiddenFiles : Bool) : Bool :=
  if showHiddenFiles then true
  else
    !((strSplitOnPred filePath (fun c => c == '/')).any
      (fun part => strLeads part "." && 1 < part.length))

/-! ## `FileScanner.scanFolder` (src/fileScanner.ts)

A directory listing is an inductive (`readdir` order is the constructor
order); fusing the entry list into the tree type keeps every recursion
structural. Files carry their content, which the scan reads only for
`.gitignore`. -/

/-- A directory listing: a sequence of file and subdirectory entries. -/
inductive FSEntries where
  | nil : FSEntries
  | file (name content : String) (rest : FSEntries) : FSEntries
  | dir (name : String) (children : FSEntries) (rest : FSEntries) : FSEntries
deriving Repr

/-- Number of file entries in the whole tree. -/
def countFiles : FSEntries → Nat
  | .nil => 0
  | .file _ _ rest => 1 + countFiles rest
  | .dir _ children rest => countFiles children + countFiles rest

/-- Directory-nesting depth of a listing (0 for a listing with no
subdirectories). -/
def listDepth : FSEntries → Nat
  | .nil => 0
  | .file _ _ rest => listDepth rest
  | .dir _ children rest => max (listDepth children + 1) (listDepth rest)

/-- Well-formedness of a listing as produced by a real `readdir`: entry
names are nonempty and contain no separator. -/
def wfEntries : FSEntries → Bool
  | .nil => true
  | .file name _ rest => !(name == "") && !(name.data.contains '/') && wfEntries rest
  | .dir name children rest =>
    !(name == "") && !(name.data.contains '/') && wfEntries children && wfEntries rest

/-- JS `trim` (ASCII whitespace). -/
def jsTrim (s : String) : String :=
  let ws := fun c => c == ' ' || c == '\t' || c == '\n' || c == '\r'
  ⟨((s.data.dropWhile ws).reverse.dropWhile ws).reverse⟩

/-- The parsing done by `loadGitignorePatterns`: split lines, trim, drop blanks and
`#` comments, drop (unsupported) `!` negations, attach `baseDir`. -/
def parseGitignoreContent (content : String) (baseDir : String) : List GitignorePattern :=
  ((strSplitOnPred content (fun c => c == '\n')).map jsTrim)
    |>.filter (fun l => !(l == "") && !(strLeads l "#"))
    |>.filterMap (fun p =>
      let p := jsTrim p
      if strLeads p "!" then none
      else some ⟨p, baseDir⟩)

/-- The `.gitignore` read of `loadGitignorePatterns`: the content of the
entry named `.gitignore` in the listing of this directory, if any. -/
def findGitignoreContent : FSEntries → Option String
  | .nil => none
  | .file name content rest =>
    if name == ".gitignore" then some content else findGitignoreContent rest
  | .dir _ _ rest => findGitignoreContent rest

/-- The `loadGitignorePatterns` for the directory whose root-relative path is
`pfx` (`""` for the workspace root, whose `baseDir` becomes `"."`). -/
def loadGitignore (pfx : String) (entries : FSEntries) : List GitignorePattern :=
  match findGitignoreContent entries with
  | some content => parseGitignoreContent content (if pfx == "" then "." else pfx)
  | none => []

/-- The early-pruned conventional large directories. -/
def knownLargeDirs : List String :=
  ["node_modules", ".git", "dist", "build", "out", "coverage", ".next", ".nuxt", "vendor"]

/-- Root-relative path of a child entry
(`getRelativePath (path.join folder name) root` with forward slashes). -/
def joinRel (pfx name : String) : String :=
  if pfx == "" then name else pfx ++ "/" ++ name

/-- The entry loop of `scanFolder`. `pfx` is the root-relative path of the
current folder, `pats` the accumulated gitignore rules, `m` the `maxFiles`
budget of this call and `acc` the files pushed so far in this folder (the
JS local `files`, which each recursive `scanFolder` call restarts at
`[]`). The own `.gitignore` of a subdirectory is loaded at the descent
site, which is where the child `scanFolder` invocation loads it in the
source. -/
def scanEntries (eng : RegexEngine) (excl : List String)
    (showHidden useGitignore : Bool) :
    FSEntries → String → List GitignorePattern → Nat → List String → List String
  | .nil, _, _, _, acc => acc
  | .file name _ rest, pfx, pats, m, acc =>
    if !(shouldIncludeFile (joinRel pfx name) showHidden) then
      scanEntries eng excl showHidden useGitignore rest pfx pats m acc
    else if shouldExcludePath eng (joinRel pfx name) excl pats false then
      scanEntries eng excl showHidden useGitignore rest pfx pats m acc
    else if m ≤ (acc ++ [joinRel pfx name]).length then acc ++ [joinRel pfx name]
    else scanEntries eng excl showHidden useGitignore rest pfx pats m (acc ++ [joinRel pfx name])
  | .dir name children rest, pfx, pats, m, acc =>
    if strToLower name ∈ knownLargeDirs then
      scanEntries eng excl showHidden useGitignore rest pfx pats m acc
    else if !(shouldIncludeFile (joinRel pfx name) showHidden) then
      scanEntries eng excl showHidden useGitignore rest pfx pats m acc
    else if shouldExcludePath eng (joinRel pfx name) excl pats true then
      scanEntries eng excl showHidden useGitignore rest pfx pats m acc
    else if m ≤ acc.length then
      scanEntries eng excl showHidden useGitignore rest pfx pats m acc
    else
      scanEntries eng excl showHidden useGitignore rest pfx pats m
        (acc ++ scanEntries eng excl showHidden useGitignore children (joinRel pfx name)
          (pats ++ (if useGitignore then loadGitignore (joinRel pfx name) children else []))
          (m - acc.length) [])

/-- The `scanFolder` applied to a workspace root (the `scanWorkspace`
invocation): no parent gitignore rules, empty relative path, and the own
`.gitignore` of the root loaded on entry. -/
def scanWorkspaceFolder (eng : RegexEngine) (excl : List String)
    (showHidden useGitignore : Bool) (m : Nat) (root : FSEntries) : List String :=
  let rootPats := if useGitignore then loadGitignore "" root else []
  scanEntries eng excl showHidden useGitignore root "" rootPats m []

/-- A regex engine that refuses every pattern (used to exercise the
compile-failure branches). -/
def noRegex : RegexEngine := ⟨fun _ => false, fun _ _ => false⟩

/-! ## `FileCache` incremental updates (src/cache.ts)

A JS `Set` is insertion-ordered and deduplicating; it is modelled as a
duplicate-free list in insertion order. -/

/-- The `Set.prototype.add`: append unless present (an existing element keeps
its position). -/
def setAdd (l : List String) (x : String) : List String :=
  if x ∈ l then l else l ++ [x]

/-- The `new Set(files)` / `Array.from`: first occurrences, in order. -/
def setFrom (l : List String) : List String := l.foldl setAdd []

/-- The `Set.prototype.delete`. -/
def setDelete (l : List String) (x : String) : List String :=
  l.filter (fun y => y != x)

/-- The creation case of `handleFileChange`: record `p` in the pending
set. -/
def handleFileCreate (pending : List String) (p : String) : List String :=
  setAdd pending p

/-- The deletion case of `handleFileChange`: record `"-" ++ p` in the
pending set. -/
def handleFileDelete (pending : List String) (p : String) : List String :=
  setAdd pending ("-" ++ p)

/-- One pending update applied to the working set: a `-`-prefixed entry
deletes, anything else adds. -/
def applyUpdate (fs : List String) (u : String) : List String :=
  if strLeads u "-" then setDelete fs (strDrop1 u) else setAdd fs u

/-- The model of `FileCache.applyIncrementalUpdates` on the file list of a
cached entry: no
pending updates is a no-op; otherwise rebuild `Set(entry.files)`, apply
every pending update in insertion order, and store `Array.from` of the
result. -/
def applyIncrementalUpdates (files : List String) (updates : List String) : List String :=
  if updates.isEmpty then files
  else updates.foldl applyUpdate (setFrom files)

/-! ## Query cache and `FileScanner.getMatchingFiles`

`src/searchCache.ts` (`HierarchicalSearchCache`) is not part of the
repository snapshot — only its import and call sites are. Its two read
operations are modelled from the spec; `getMatchingFiles` itself follows
src/fileScanner.ts lines 403–478, with the workspace scan state abstracted
into the `allFiles` argument and the cache-write side effects (which do not
affect the returned value) dropped. -/

/-- Modelled from the spec: `HierarchicalSearchCache.getCachedResults`
(src/searchCache.ts is absent) — the stored result set for the longest
cached key that is a prefix of the query, if any ("if a cached result
exists for a prefix of the current query"). -/
def getCachedResults (cache : List (String × List FuzzyMatch)) (q : String) :
    Option (List FuzzyMatch) :=
  let hits := cache.filter (fun kv => strLeads q kv.1)
  (hits.foldl
    (fun best kv =>
      match best with
      | none => some kv
      | some b => if b.1.length < kv.1.length then some kv else some b)
    none).map (fun kv => kv.2)

/-- Modelled from the spec: `HierarchicalSearchCache.filterCachedResults`
(src/searchCache.ts is absent) — keep the cached matches whose path still
matches the fuller query ("filters that cached candidate set with a
(cheap) re-score against the fuller query"), using the same per-path
matcher the search itself uses. -/
def filterCachedResults (cached : List FuzzyMatch) (q : String) : List FuzzyMatch :=
  let searchQuery := strToLower q
  let normalizedQuery := normalizeForSearch searchQuery
  cached.filter (fun m => (searchOne true searchQuery normalizedQuery m.path).isSome)

/-- The `FileScanner.getMatchingFiles`: the query-cache narrowing branch
(filter the cached set, re-run the fuzzy search over its paths, *without*
file-type weighting), else the cancellation check, else the full scan
branch (fuzzy search over all files with a doubled cap, file-type weights,
re-sort, cap). The scanner is constructed with `caseInsensitive: true`. -/
def getMatchingFiles (q : String) (cancelled : Bool)
    (cache : List (String × List FuzzyMatch)) (allFiles : List String)
    (maxResults : Nat) : List FuzzyMatch :=
  match getCachedResults cache q with
  | some cachedResults =>
    fuzzySearch true q ((filterCachedResults cachedResults q).map (fun m => m.path)) maxResults
  | none =>
    if cancelled then []
    else if allFiles.isEmpty then []
    else
      let ms := fuzzySearch true q allFiles (maxResults * 2)
      let weighted := ms.map (fun m => ⟨m.path, m.score * getFileTypeWeight m.path, m.positions⟩)
      (sortByScoreDesc weighted).take maxResults

/-- The comparison point the spec gives for the narrowing invariant: the full
fresh search (no query cache, not cancelled) restricted to a given
candidate set. -/
def freshSearchOn (q : String) (paths : List String) (maxResults : Nat) : List FuzzyMatch :=
  getMatchingFiles q false [] paths maxResults

/-! ## Claim C2 — exact match versus extended candidate -/

/-- C2: evaluation of the scorer at the failing input `q = "abc"`. The walk
score is identical (7) for both candidates, but the spread penalty
`1 - (last - first)/target.length` is `1/3` for the exact candidate and
`7/9` for `"abc_extra"`, so even after the exact-match doubling the exact
candidate scores `14/3 < 49/9`: the code contradicts the claim (and its own
test that exact matches rank above extended ones). -/
theorem c2_exact_match_scores_below_extended :
    fuzzyMatchString true "abc" "abc" = some (14/3, [0, 1, 2]) ∧
    fuzzyMatchString true "abc" "abc_extra" = some (49/9, [0, 1, 2]) ∧
    (14/3 : ℚ) < 49/9 := by
  refine ⟨?_, ?_, by norm_num⟩ <;>
    simp [fuzzyMatchString, fuzzyWalk, strToLower, isAlphanumeric] <;> norm_num

/-! ## Claim C6 — result ordering -/

/-- C6 counterexample: `"bb/a"` and `"b/a"` both score 15 for query `"a"`,
and the (stable) sort keeps the longer path `"bb/a"` first, contradicting
the shorter-path-first tie-break. -/
theorem c6_tie_order_counterexample :
    fuzzySearch true "a" ["bb/a", "b/a"] 10 =
      [⟨"bb/a", 15, [0]⟩, ⟨"b/a", 15, [0]⟩] ∧
    "b/a".data.length < "bb/a".data.length := by
  constructor
  · simp [fuzzySearch, List.filterMap_cons, searchOne, pickBest, fuzzyMatch,
      fuzzyMatchNormalized, fuzzyMatchString, fuzzyWalk, fuzzyMatchPathSegments,
      segLoop, baseName, strSplitOnPred, splitChars, normalizeForSearch,
      strToLower, isAlphanumeric]
    norm_num [sortByScoreDesc, insertByScoreDesc]
  · decide

/-! ## Claim C3 — matched positions -/

/-- C3 counterexample: for query `"abc"` and candidate `"src/abc.ts"` the
winning strategy is the symbol-stripped filename pass, whose positions
`[0, 1, 2]` index the normalised filename `"abcts"`; read as indices into
the candidate path they select `"src"`, which does not equal the query even
case-insensitively — so `matchedPositions` does not index the path string. -/
theorem c3_positions_counterexample :
    fuzzySearch true "abc" ["src/abc.ts"] 50 = [⟨"src/abc.ts", 63/5, [0, 1, 2]⟩] ∧
    (strToLower "src/abc.ts").data.take 3 ≠ (strToLower "abc").data := by
  constructor
  · simp [fuzzySearch, List.filterMap_cons, searchOne, pickBest, fuzzyMatch,
      fuzzyMatchNormalized, fuzzyMatchString, fuzzyWalk, fuzzyMatchPathSegments,
      segLoop, baseName, strSplitOnPred, splitChars, normalizeForSearch,
      strToLower, isAlphanumeric]
    norm_num [sortByScoreDesc, insertByScoreDesc]
  · decide

/-- Shared evaluation: the combined matcher on query `"a"` and candidate
`"a.ts"` (the normalised filename pass wins: `2.5 × 2 (exact) × 3`
against the raw filename pass `2.5 × 2`). -/
theorem searchOne_a_ats : searchOne true "a" "a" "a.ts" = some ⟨"a.ts", 15/2, [0]⟩ := by
  simp [searchOne, pickBest, fuzzyMatch, fuzzyMatchNormalized, fuzzyMatchString,
    fuzzyWalk, fuzzyMatchPathSegments, segLoop, baseName, strSplitOnPred,
    splitChars, normalizeForSearch, strToLower, isAlphanumeric]
  norm_num

/-! ## Claim C9 — cancellation -/

/-- C9 counterexample: a search entered with an *already-cancelled* token
still returns results whenever the query cache holds an entry for a prefix
of the query, because the source checks the token only after the cache
branch — so a cancelled search does not always return an empty result. -/
theorem c9_cancelled_cache_counterexample :
    getMatchingFiles "a" true [("a", [⟨"a.ts", 0, []⟩])] [] 50 =
      [⟨"a.ts", 15/2, [0]⟩] ∧
    ([(⟨"a.ts", 15/2, [0]⟩ : FuzzyMatch)] : List FuzzyMatch) ≠ [] := by
  constructor
  · simp only [getMatchingFiles, getCachedResults, filterCachedResults,
      List.filter_cons, List.filter_nil, List.foldl, Option.map, strLeads, listLeads]
    simp [strToLower, normalizeForSearch, isAlphanumeric, searchOne_a_ats,
      fuzzySearch, sortByScoreDesc, insertByScoreDesc]
  · decide

/-! ## Claim C1 — query-cache narrowing versus fresh search -/

/-- C1 counterexample: narrowing a cached result set for `"a"` containing
`"a.ts"` returns score `15/2`, while the fresh search restricted to the
same path applies the `.ts` file-type weight `6/5` and returns `9`: the
narrowing branch never applies file-type weights, so the two result lists
are not identical. -/
theorem c1_narrow_counterexample :
    getMatchingFiles "a" false [("a", [⟨"a.ts", 0, []⟩])] ["a.ts"] 50 =
      [⟨"a.ts", 15/2, [0]⟩] ∧
    freshSearchOn "a" ["a.ts"] 50 = [⟨"a.ts", 9, [0]⟩] ∧
    (15/2 : ℚ) ≠ 9 := by
  refine ⟨?_, ?_, by norm_num⟩ <;>
  · simp only [freshSearchOn, getMatchingFiles, getCachedResults, filterCachedResults,
      List.filter_cons, List.filter_nil, List.foldl, Option.map, strLeads, listLeads]
    simp [strToLower, normalizeForSearch, isAlphanumeric, searchOne_a_ats,
      fuzzySearch, sortByScoreDesc, insertByScoreDesc, getFileTypeWeight, extName,
      baseName, strSplitOnPred, splitChars]
    try norm_num

/-! ## Claim C4 — the entry budget -/

/-- C4 counterexample: with `maxEntries = 1` and the tree
`{d/a, b}` (directory first in `readdir` order), the subdirectory fills the
budget exactly, and the following file is still pushed before the budget
check runs — the scan returns 2 entries, exceeding the budget. -/
theorem c4_budget_counterexample :
    ¬ ((scanWorkspaceFolder noRegex [] true false 1
        (.dir "d" (.file "a" "" .nil) (.file "b" "" .nil))).length ≤ 1) := by
  decide

/-! ## Claim C5 — invalid-pattern degradation -/

/-- C5 counterexample: under an engine that fails to compile the pattern
`"a*b"`, the gitignore matcher returns `false` on `"xab"` even though the
substring check of the star-stripped pattern (`"ab"` inside `"xab"`)
succeeds — gitignore rules do *not* degrade to substring containment
(`matchesGitignorePatternInternal` returns `false` in its `catch`). -/
theorem c5_gitignore_fallback_counterexample :
    matchesGitignorePattern noRegex "xab" ⟨"a*b", "."⟩ false = false ∧
    strContains "xab" ⟨"a*b".data.filter (fun c => !(c == '*'))⟩ = true := by
  decide

/-- C9 amended: the code checks cancellation exactly once, after the query
cache and before the workspace scan — so a search entered with an
already-cancelled token *and no cached prefix result* returns `[]`, for
every file list (the scan result is never consulted). -/
theorem c9_cancelled_no_cache_returns_empty (q : String)
    (cache : List (String × List FuzzyMatch)) (files : List String) (k : Nat)
    (h : getCachedResults cache q = none) :
    getMatchingFiles q true cache files k = [] := by
  simp [getMatchingFiles, h]

/-- Witness for `c9_cancelled_no_cache_returns_empty` at an empty cache. -/
theorem c9_cancelled_no_cache_returns_empty_witness :
    getMatchingFiles "a" true [] ["x.ts"] 5 = [] :=
  c9_cancelled_no_cache_returns_empty "a" [] ["x.ts"] 5 rfl

/-- C5 amended: on a compile failure of the translated pattern, only the
*exclude-glob* matcher degrades to substring containment of the
star-stripped pattern; a *gitignore* rule whose pattern fails to compile is
treated as non-matching (its `catch` returns `false`). -/
theorem c5_invalid_pattern_degradation (eng : RegexEngine) :
    (∀ path pattern : String,
      pattern ≠ "**/node_modules" → pattern ≠ "**/node_modules/**" →
      pattern ≠ "**/.git" → pattern ≠ "**/.git/**" →
      (strHasChar pattern '*' = true ∨ strHasChar pattern '?' = true) →
      eng.compileOk ("^" ++ globTranslate pattern ++ "$") = false →
      matchesGlobPattern eng path pattern =
        strContains path ⟨pattern.data.filter (fun c => !(c == '*'))⟩) ∧
    (∀ path pattern : String,
      (strHasChar pattern '*' = true ∨ strHasChar pattern '?' = true) →
      eng.compileOk ("^" ++ globTranslate pattern ++ "(/.*)?$") = false →
      matchesGitignorePatternInternal eng path pattern = false) := by
  constructor
  · intro path pattern h1 h2 h3 h4 h5 h6
    rcases h5 with h5 | h5 <;>
      simp [matchesGlobPattern, beq_iff_eq, h1, h2, h3, h4, h5, h6]
  · intro path pattern h5 h6
    rcases h5 with h5 | h5 <;>
      simp [matchesGitignorePatternInternal, h5, h6]

/-- Witness for `c5_invalid_pattern_degradation` under the all-refusing
engine: the glob fallback really is the substring check (pattern `"a*b"`,
path `"zab"`), and the gitignore matcher really returns `false`. -/
theorem c5_invalid_pattern_degradation_witness :
    (matchesGlobPattern noRegex "zab" "a*b" =
      strContains "zab" ⟨"a*b".data.filter (fun c => !(c == '*'))⟩) ∧
    matchesGitignorePatternInternal noRegex "zab" "a*b" = false :=
  ⟨(c5_invalid_pattern_degradation noRegex).1 "zab" "a*b"
      (by decide) (by decide) (by decide) (by decide) (Or.inl (by decide)) rfl,
    (c5_invalid_pattern_degradation noRegex).2 "zab" "a*b" (Or.inl (by decide)) rfl⟩

/-! ## Claim C8 — incremental update merge semantics -/

/-- The `setAdd` keeps a duplicate-free list duplicate-free. -/
theorem setAdd_nodup {l : List String} (h : l.Nodup) (x : String) : (setAdd l x).Nodup := by
  unfold setAdd
  split
  · exact h
  · next hx => simpa [List.nodup_append] using ⟨h, fun hmem => hx hmem⟩

/-- The `setFrom` always produces a duplicate-free list. -/
theorem setFrom_nodup (l : List String) : (setFrom l).Nodup := by
  suffices h : ∀ acc : List String, acc.Nodup → (l.foldl setAdd acc).Nodup by
    exact h [] List.nodup_nil
  induction l with
  | nil => intro acc hacc; exact hacc
  | cons x xs ih => intro acc hacc; exact ih _ (setAdd_nodup hacc x)

/-- The `foldl setAdd` over fresh elements is plain concatenation. -/
theorem foldl_setAdd_eq_append :
    ∀ (l acc : List String), (acc ++ l).Nodup → l.foldl setAdd acc = acc ++ l := by
  intro l
  induction l with
  | nil => intro acc _; simp
  | cons x xs ih =>
    intro acc hacc
    have hx : x ∉ acc := fun hmem =>
      (List.disjoint_of_nodup_append hacc) hmem (by simp)
    rw [List.foldl_cons]
    have hset : setAdd acc x = acc ++ [x] := by simp [setAdd, hx]
    rw [hset, ih (acc ++ [x]) (by simpa using hacc)]
    simp

/-- On a duplicate-free list, `new Set(files)` is the identity. -/
theorem setFrom_eq_self {l : List String} (h : l.Nodup) : setFrom l = l := by
  simpa using foldl_setAdd_eq_append l [] (by simpa using h)

/-- Membership in `setAdd`. -/
theorem mem_setAdd {l : List String} {x y : String} :
    y ∈ setAdd l x ↔ y ∈ l ∨ y = x := by
  unfold setAdd
  split
  · next hx =>
    exact ⟨Or.inl, fun h => h.elim id (fun he => he ▸ hx)⟩
  · simp

/-- Adding an element twice is the same as adding it once. -/
theorem setAdd_idem (l : List String) (x : String) :
    setAdd (setAdd l x) x = setAdd l x := by
  have hx : x ∈ setAdd l x := mem_setAdd.mpr (Or.inr rfl)
  conv_lhs => rw [setAdd]
  rw [if_pos hx]

/-- C8: merge semantics of `applyIncrementalUpdates` — (a) a deletion of a
path that was never present is a no-op on a duplicate-free index; (b) a
creation leaves the path in the merged index *exactly once*, for every
starting index — in particular when the path is already present, which is
the set-semantics (not list-append) content of the claim — provided the
path does not itself begin with a dash, the marker `handleFileChange`
reserves for deletions (absolute `uri.fsPath` values never do); (c)
recording the same creation twice leaves the pending set (and hence the
merged index) identical to recording it once. Each hypothesis scopes only
the conjunct that needs it. -/
theorem c8_incremental_set_semantics (files pending : List String) (p : String) :
    (files.Nodup → p ∉ files →
      applyIncrementalUpdates files (handleFileDelete [] p) = files) ∧
    (strLeads p "-" = false →
      (applyIncrementalUpdates files (handleFileCreate [] p)).count p = 1) ∧
    handleFileCreate (handleFileCreate pending p) p = handleFileCreate pending p := by
  refine ⟨?_, ?_, setAdd_idem pending p⟩
  · intro hnd hnp
    have hlead : strLeads ("-" ++ p) "-" = true := by
      simp [strLeads, listLeads, String.data_append]
    have hdrop : strDrop1 ("-" ++ p) = p := by
      show (⟨(("-" ++ p).data).drop 1⟩ : String) = p
      rw [String.data_append]
      rfl
    simp only [applyIncrementalUpdates, handleFileDelete, setAdd, List.not_mem_nil,
      if_false, List.nil_append, List.isEmpty_cons, List.foldl_cons, List.foldl_nil,
      applyUpdate, hlead, hdrop, if_true, Bool.false_eq_true]
    rw [setFrom_eq_self hnd]
    exact List.filter_eq_self.mpr (fun y hy => by
      simp only [bne_iff_ne, ne_eq]
      exact fun hEq => hnp (hEq ▸ hy))
  · intro hdash
    simp only [applyIncrementalUpdates, handleFileCreate, setAdd, List.not_mem_nil,
      if_false, List.nil_append, List.isEmpty_cons, List.foldl_cons, List.foldl_nil,
      applyUpdate, hdash, Bool.false_eq_true]
    have hnodup : (setFrom files).Nodup := setFrom_nodup files
    by_cases hmem : p ∈ setFrom files
    · simp only [hmem, if_true]
      exact List.count_eq_one_of_mem hnodup hmem
    · simp only [hmem, if_false]
      have : (setFrom files ++ [p]).Nodup := by
        simpa [List.nodup_append] using ⟨hnodup, fun h => hmem h⟩
      exact List.count_eq_one_of_mem this (by simp)

/-- Witness for `c8_incremental_set_semantics` on concrete indexes; the
creation conjunct is exercised on an index that *already contains* the
created path, the case that distinguishes a set merge from list append. -/
theorem c8_incremental_set_semantics_witness :
    applyIncrementalUpdates ["x.txt"] (handleFileDelete [] "a.txt") = ["x.txt"] ∧
    (applyIncrementalUpdates ["x.txt", "a.txt"]
      (handleFileCreate [] "a.txt")).count "a.txt" = 1 ∧
    handleFileCreate (handleFileCreate [] "a.txt") "a.txt" =
      handleFileCreate [] "a.txt" :=
  ⟨(c8_incremental_set_semantics ["x.txt"] [] "a.txt").1 (by decide) (by decide),
    (c8_incremental_set_semantics ["x.txt", "a.txt"] [] "a.txt").2.1 (by decide),
    (c8_incremental_set_semantics [] [] "a.txt").2.2⟩

/-- Score-descending order, as left by the JS comparator
`(a, b) => b.score - a.score`. -/
def ScoreDesc (a b : FuzzyMatch) : Prop := b.score ≤ a.score

/-- The head of an insertion is either the inserted element or the head of
the original list. -/
theorem insertByScoreDesc_head (m : FuzzyMatch) (l : List FuzzyMatch) :
    (insertByScoreDesc m l).head? = some m ∨
    (insertByScoreDesc m l).head? = l.head? := by
  cases l with
  | nil => left; rfl
  | cons x xs =>
    rw [insertByScoreDesc]
    split
    · left; rfl
    · right; rfl

/-- Inserting into a score-descending list keeps it score-descending. -/
theorem insertByScoreDesc_chain (m : FuzzyMatch) :
    ∀ l : List FuzzyMatch, List.Chain' ScoreDesc l →
      List.Chain' ScoreDesc (insertByScoreDesc m l) := by
  intro l
  induction l with
  | nil => intro _; simp [insertByScoreDesc]
  | cons x xs ih =>
    intro h
    rw [insertByScoreDesc]
    split
    · next hc => exact List.Chain'.cons hc h
    · next hc =>
      rw [List.chain'_cons']
      refine ⟨?_, ih h.tail⟩
      intro y hy
      rcases insertByScoreDesc_head m xs with hh | hh
      · rw [hh] at hy
        simp only [Option.mem_def, Option.some_inj] at hy
        subst hy
        exact le_of_lt (lt_of_not_le hc)
      · rw [hh] at hy
        exact (List.chain'_cons'.mp h).1 y hy

/-- The stable descending sort really sorts by descending score. -/
theorem sortByScoreDesc_chain :
    ∀ l : List FuzzyMatch, List.Chain' ScoreDesc (sortByScoreDesc l) := by
  intro l
  induction l with
  | nil => simp [sortByScoreDesc]
  | cons x xs ih => exact insertByScoreDesc_chain x _ ih

/-- C6 amended: every result list of `FuzzySearcher.search` is sorted by
descending score (the empty-query branch emits all-zero scores in input
order). Equal scores keep candidate order — the comparator is a stable
sort on score alone, so there is no shorter-path tie-break (see the
counterexample). -/
theorem c6_search_sorted_desc (ci : Bool) (q : String) (ps : List String) (k : Nat) :
    List.Chain' ScoreDesc (fuzzySearch ci q ps k) := by
  rw [fuzzySearch]
  split
  · have hz : ∀ t : List String,
        List.Chain' ScoreDesc (t.map fun p => (⟨p, 0, []⟩ : FuzzyMatch)) := by
      intro t
      rw [List.chain'_map]
      induction t with
      | nil => simp
      | cons a t iht =>
        rw [List.chain'_cons']
        exact ⟨fun y _ => le_refl _, iht⟩
    exact hz _
  · exact (sortByScoreDesc_chain _).take _

/-! ## Scan-length lemmas (claims C4 and C10) -/

/-- The scan pushes each file entry at most once: the output grows by at
most the number of files in the subtree. -/
theorem scanEntries_length_le (eng : RegexEngine) (excl : List String) (sh ug : Bool) :
    ∀ es : FSEntries, ∀ (pfx : String) (pats : List GitignorePattern)
      (m : Nat) (acc : List String),
      (scanEntries eng excl sh ug es pfx pats m acc).length ≤ acc.length + countFiles es := by
  intro es
  induction es with
  | nil =>
    intro pfx pats m acc
    simp [scanEntries, countFiles]
  | file name content rest ih =>
    intro pfx pats m acc
    rw [scanEntries]
    simp only [countFiles]
    split_ifs with h1 h2 h3
    · exact le_trans (ih pfx pats m acc) (by omega)
    · exact le_trans (ih pfx pats m acc) (by omega)
    · simp only [List.length_append, List.length_cons, List.length_nil]; omega
    · exact le_trans (ih pfx pats m (acc ++ [joinRel pfx name]))
        (by simp only [List.length_append, List.length_cons, List.length_nil]; omega)
  | dir name children rest ihc ihr =>
    intro pfx pats m acc
    rw [scanEntries]
    simp only [countFiles]
    set childPats :=
      pats ++ (if ug then loadGitignore (joinRel pfx name) children else []) with hcp
    split_ifs with h1 h2 h3 h4
    · exact le_trans (ihr pfx pats m acc) (by omega)
    · exact le_trans (ihr pfx pats m acc) (by omega)
    · exact le_trans (ihr pfx pats m acc) (by omega)
    · exact le_trans (ihr pfx pats m acc) (by omega)
    · have hsub := ihc (joinRel pfx name) childPats (m - acc.length) []
      have hrest := ihr pfx pats m
        (acc ++ scanEntries eng excl sh ug children (joinRel pfx name) childPats
          (m - acc.length) [])
      simp only [List.length_append, List.length_nil, Nat.zero_add] at hsub hrest ⊢
      omega

/-- Once the budget is met, the scan adds at most one more entry (the
single post-push check in the file branch). -/
theorem scanEntries_saturated (eng : RegexEngine) (excl : List String) (sh ug : Bool) :
    ∀ es : FSEntries, ∀ (pfx : String) (pats : List GitignorePattern)
      (m : Nat) (acc : List String), m ≤ acc.length →
      (scanEntries eng excl sh ug es pfx pats m acc).length ≤ acc.length + 1 := by
  intro es
  induction es with
  | nil =>
    intro pfx pats m acc hm
    simp [scanEntries]
  | file name content rest ih =>
    intro pfx pats m acc hm
    rw [scanEntries]
    split_ifs with h1 h2 h3
    · exact ih pfx pats m acc hm
    · exact ih pfx pats m acc hm
    · simp
    · exact absurd
        (show m ≤ (acc ++ [joinRel pfx name]).length by simp; omega) h3
  | dir name children rest ihc ihr =>
    intro pfx pats m acc hm
    rw [scanEntries]
    set childPats :=
      pats ++ (if ug then loadGitignore (joinRel pfx name) children else []) with hcp
    split_ifs with h1 h2 h3
    · exact ihr pfx pats m acc hm
    · exact ihr pfx pats m acc hm
    · exact ihr pfx pats m acc hm
    · exact ihr pfx pats m acc hm

/-- The true budget bound of the scan: the output exceeds `maxFiles` by at most
the directory-nesting depth plus one — each nesting level can contribute
one over-budget push before the check fires, and so can the top level. -/
theorem scanEntries_budget_bound (eng : RegexEngine) (excl : List String) (sh ug : Bool) :
    ∀ es : FSEntries, ∀ (pfx : String) (pats : List GitignorePattern)
      (m : Nat) (acc : List String), acc.length ≤ m →
      (scanEntries eng excl sh ug es pfx pats m acc).length ≤ m + listDepth es + 1 := by
  intro es
  induction es with
  | nil =>
    intro pfx pats m acc hm
    simp only [scanEntries, listDepth]
    omega
  | file name content rest ih =>
    intro pfx pats m acc hm
    rw [scanEntries]
    simp only [listDepth]
    split_ifs with h1 h2 h3
    · exact ih pfx pats m acc hm
    · exact ih pfx pats m acc hm
    · simp only [List.length_append, List.length_cons, List.length_nil]; omega
    · refine ih pfx pats m (acc ++ [joinRel pfx name]) ?_
      simp only [List.length_append, List.length_cons, List.length_nil] at h3 ⊢
      omega
  | dir name children rest ihc ihr =>
    intro pfx pats m acc hm
    rw [scanEntries]
    simp only [listDepth]
    set childPats :=
      pats ++ (if ug then loadGitignore (joinRel pfx name) children else []) with hcp
    have hmax1 : listDepth children + 1 ≤
        max (listDepth children + 1) (listDepth rest) := Nat.le_max_left _ _
    have hmax2 : listDepth rest ≤
        max (listDepth children + 1) (listDepth rest) := Nat.le_max_right _ _
    split_ifs with h1 h2 h3 h4
    · exact le_trans (ihr pfx pats m acc hm) (by omega)
    · exact le_trans (ihr pfx pats m acc hm) (by omega)
    · exact le_trans (ihr pfx pats m acc hm) (by omega)
    · exact le_trans (ihr pfx pats m acc hm) (by omega)
    · have hlt : acc.length < m := by omega
      have hsub := ihc (joinRel pfx name) childPats (m - acc.length) [] (by simp)
      set sub := scanEntries eng excl sh ug children (joinRel pfx name) childPats
        (m - acc.length) [] with hsubdef
      by_cases hcase : (acc ++ sub).length ≤ m
      · exact le_trans (ihr pfx pats m (acc ++ sub) hcase) (by omega)
      · have hsat := scanEntries_saturated eng excl sh ug rest pfx pats m (acc ++ sub)
          (by omega)
        refine le_trans hsat ?_
        simp only [List.length_append] at hcase ⊢
        omega

/-! ## Claim C4 — amended budget bound -/

/-- C4 amended: a workspace scan returns at most
`maxEntries + nesting depth + 1` entries (the budget can be overshot by
one entry per directory-nesting level, as the counterexample shows, but by
no more), and the scan is a total function — it returns normally on every
tree. -/
theorem c4_budget_overshoot_bound (eng : RegexEngine) (excl : List String)
    (sh ug : Bool) (m : Nat) (root : FSEntries) :
    (scanWorkspaceFolder eng excl sh ug m root).length ≤ m + listDepth root + 1 :=
  scanEntries_budget_bound eng excl sh ug root "" _ m [] (by simp)

/-! ## Claim C10 — termination of the recursive scan -/

/-- C10: the embedded `scanFolder` recursion is *structural* on the
directory tree — every recursive call processes either a strict
subdirectory (`children`) or the remaining siblings (`rest`), which is
exactly the well-founded descent the claim describes, and is what lets
Lean accept `scanEntries` as a total function. As a quantitative
consequence of visiting each entry at most once, the output of the scan is
bounded by the number of files in the tree. -/
theorem c10_scan_terminates_bounded (eng : RegexEngine) (excl : List String)
    (sh ug : Bool) (m : Nat) (root : FSEntries) :
    (scanWorkspaceFolder eng excl sh ug m root).length ≤ countFiles root := by
  have h := scanEntries_length_le eng excl sh ug root ""
    (if ug then loadGitignore "" root else []) m []
  simpa [scanWorkspaceFolder] using h

/-! ## Claim C7 — pruned directories never appear in the output

Output paths are characterised by their decomposition into `/`-joined
segments; with every segment nonempty and separator-free (which
`wfEntries` guarantees for real `readdir` listings) such a decomposition
is unique, so the statement "no directory segment of an output path is a
known large directory" is exactly "no path under a pruned directory is
ever emitted". -/

/-- Join path segments with `/` (inverse of splitting a well-formed
relative path). -/
def joinSegs : List String → String
  | [] => ""
  | [s] => s
  | s :: rest => s ++ "/" ++ joinSegs rest

/-- A directory segment the traversal was allowed to descend into: not on
the known-large-directory list (case-insensitively), nonempty, and
separator-free. -/
def cleanSeg (s : String) : Prop :=
  strToLower s ∉ knownLargeDirs ∧ s ≠ "" ∧ s.data.contains '/' = false

/-- A path emitted below the prefix segments `L`: some descended (clean)
directory segments followed by a file name. -/
def GoodPath (L : List String) (p : String) : Prop :=
  ∃ dsegs fname, p = joinSegs (L ++ dsegs ++ [fname]) ∧
    (∀ d ∈ dsegs, cleanSeg d) ∧ fname ≠ "" ∧ fname.data.contains '/' = false

/-- A slash-join of anything is never the empty string. -/
theorem append_slash_ne_empty (s t : String) : s ++ "/" ++ t ≠ "" := by
  intro h
  have := congrArg String.data h
  simp [String.data_append] at this

/-- A nonempty list of nonempty segments joins to a nonempty string. -/
theorem joinSegs_ne_empty :
    ∀ L : List String, L ≠ [] → (∀ s ∈ L, s ≠ "") → joinSegs L ≠ "" := by
  intro L
  match L with
  | [] => intro h _; exact absurd rfl h
  | [s] => intro _ hs; simpa [joinSegs] using hs s (by simp)
  | s :: t :: rest => intro _ _; exact append_slash_ne_empty s (joinSegs (t :: rest))

/-- Appending one segment corresponds to `joinRel` in the scanner. -/
theorem joinSegs_append_single :
    ∀ (L : List String) (n : String), (∀ s ∈ L, s ≠ "") →
      joinSegs (L ++ [n]) = joinRel (joinSegs L) n := by
  intro L
  induction L with
  | nil => intro n _; simp [joinSegs, joinRel]
  | cons a L' ih =>
    intro n hne
    have ha : a ≠ "" := hne a (by simp)
    cases L' with
    | nil =>
      simp only [List.nil_append, List.singleton_append, joinSegs, joinRel]
      rw [if_neg (by simpa using ha)]
    | cons b L'' =>
      have hL' : ∀ s ∈ b :: L'', s ≠ "" := fun s hs => hne s (by simp [hs])
      have hjm : joinSegs (b :: L'') ≠ "" := joinSegs_ne_empty _ (by simp) hL'
      have hstep : joinSegs (a :: b :: L'') = a ++ "/" ++ joinSegs (b :: L'') := rfl
      simp only [List.cons_append]
      have hcons : joinSegs (a :: b :: (L'' ++ [n])) =
          a ++ "/" ++ joinSegs (b :: (L'' ++ [n])) := rfl
      have ih' := ih n hL'
      simp only [List.cons_append] at ih'
      rw [hcons, ih', hstep]
      simp only [joinRel]
      rw [if_neg (by simpa using hjm), if_neg (by
        simpa using append_slash_ne_empty a (joinSegs (b :: L'')))]
      apply String.ext
      simp [String.data_append]

/-- Invariant of the entry loop: every emitted path is either inherited
from `acc` or decomposes into clean descended-directory segments (below
the current prefix) plus a file name. -/
theorem scanEntries_good_paths (eng : RegexEngine) (excl : List String) (sh ug : Bool) :
    ∀ es : FSEntries, ∀ (L : List String) (pats : List GitignorePattern)
      (m : Nat) (acc : List String),
      wfEntries es = true → (∀ s ∈ L, s ≠ "") →
      ∀ p ∈ scanEntries eng excl sh ug es (joinSegs L) pats m acc,
        p ∈ acc ∨ GoodPath L p := by
  intro es
  induction es with
  | nil =>
    intro L pats m acc _ _ p hp
    exact Or.inl (by simpa [scanEntries] using hp)
  | file name content rest ih =>
    intro L pats m acc hwf hL p hp
    simp only [wfEntries, Bool.and_eq_true, bne_iff_ne, ne_eq, Bool.not_eq_true'] at hwf
    obtain ⟨⟨hname, hslash⟩, hwfrest⟩ := hwf
    have hgood : GoodPath L (joinRel (joinSegs L) name) := by
      refine ⟨[], name, ?_, by simp, by simpa using hname, hslash⟩
      rw [List.append_nil, joinSegs_append_single L name hL]
    rw [scanEntries] at hp
    split_ifs at hp with h1 h2 h3
    · exact ih L pats m acc hwfrest hL p hp
    · exact ih L pats m acc hwfrest hL p hp
    · rcases List.mem_append.mp hp with h | h
      · exact Or.inl h
      · right
        have : p = joinRel (joinSegs L) name := by simpa using h
        exact this ▸ hgood
    · rcases ih L pats m (acc ++ [joinRel (joinSegs L) name]) hwfrest hL p hp with h | h
      · rcases List.mem_append.mp h with h' | h'
        · exact Or.inl h'
        · right
          have : p = joinRel (joinSegs L) name := by simpa using h'
          exact this ▸ hgood
      · exact Or.inr h
  | dir name children rest ihc ihr =>
    intro L pats m acc hwf hL p hp
    simp only [wfEntries, Bool.and_eq_true, bne_iff_ne, ne_eq, Bool.not_eq_true'] at hwf
    obtain ⟨⟨⟨hname, hslash⟩, hwfch⟩, hwfrest⟩ := hwf
    rw [scanEntries] at hp
    set childPats :=
      pats ++ (if ug then loadGitignore (joinRel (joinSegs L) name) children else [])
      with hcp
    split_ifs at hp with h1 h2 h3 h4
    · exact ihr L pats m acc hwfrest hL p hp
    · exact ihr L pats m acc hwfrest hL p hp
    · exact ihr L pats m acc hwfrest hL p hp
    · exact ihr L pats m acc hwfrest hL p hp
    · have hLname : ∀ s ∈ L ++ [name], s ≠ "" := by
        intro s hs
        rcases List.mem_append.mp hs with h | h
        · exact hL s h
        · simp only [List.mem_singleton] at h
          subst h
          simpa using hname
      have hjoin : joinRel (joinSegs L) name = joinSegs (L ++ [name]) :=
        (joinSegs_append_single L name hL).symm
      rcases ihr L pats m
          (acc ++ scanEntries eng excl sh ug children (joinRel (joinSegs L) name)
            childPats (m - acc.length) []) hwfrest hL p hp with h | h
      · rcases List.mem_append.mp h with h' | h'
        · exact Or.inl h'
        · right
          rw [hjoin] at h'
          rcases ihc (L ++ [name]) childPats (m - acc.length) [] hwfch hLname p h' with
            habs | hgp
          · exact absurd habs (List.not_mem_nil p)
          · obtain ⟨dsegs, fname, hpeq, hclean, hfne, hfsl⟩ := hgp
            refine ⟨name :: dsegs, fname, ?_, ?_, hfne, hfsl⟩
            · rw [hpeq]
              congr 1
              simp
            · intro d hd
              rcases List.mem_cons.mp hd with h'' | h''
              · subst h''
                exact ⟨h1, by simpa using hname, hslash⟩
              · exact hclean d h''
      · exact Or.inr h

/-- C7: every path a workspace scan emits decomposes into nonempty,
separator-free segments whose directory part contains no known large
directory (case-insensitively) — equivalently, nothing under a pruned
`node_modules`/`.git`/… subtree ever appears in the output, whatever the
exclude rules, gitignore rules, hidden-file setting or budget. -/
theorem c7_pruned_dirs_never_output (eng : RegexEngine) (excl : List String)
    (sh ug : Bool) (m : Nat) (root : FSEntries) (hwf : wfEntries root = true) :
    ∀ p ∈ scanWorkspaceFolder eng excl sh ug m root,
      ∃ dsegs fname, p = joinSegs (dsegs ++ [fname]) ∧
        (∀ d ∈ dsegs, strToLower d ∉ knownLargeDirs ∧ d ≠ "" ∧
          d.data.contains '/' = false) ∧
        fname ≠ "" ∧ fname.data.contains '/' = false := by
  intro p hp
  have h := scanEntries_good_paths eng excl sh ug root []
    (if ug then loadGitignore "" root else []) m [] hwf (by simp) p
    (by simpa [scanWorkspaceFolder, joinSegs] using hp)
  rcases h with h | h
  · exact absurd h (List.not_mem_nil p)
  · obtain ⟨dsegs, fname, hpeq, hclean, hfne, hfsl⟩ := h
    exact ⟨dsegs, fname, by simpa using hpeq, fun d hd => hclean d hd, hfne, hfsl⟩

/-- Witness for `c7_pruned_dirs_never_output` on a concrete two-directory
tree containing a `node_modules` subtree. -/
theorem c7_pruned_dirs_never_output_witness :
    ∃ dsegs fname, "a/f.txt" = joinSegs (dsegs ++ [fname]) ∧
      (∀ d ∈ dsegs, strToLower d ∉ knownLargeDirs ∧ d ≠ "" ∧
        d.data.contains '/' = false) ∧
      fname ≠ "" ∧ fname.data.contains '/' = false :=
  c7_pruned_dirs_never_output noRegex [] true false 10
    (.dir "a" (.file "f.txt" "" .nil) (.dir "node_modules" (.file "x" "" .nil) .nil))
    (by decide) "a/f.txt" (by decide)

/-! ## Claim C3 — amended position invariant (per matching pass) -/

/-- Shift the per-position correspondence one target character left. -/
theorem forall2_pos_shift (pair : Char × Char) (ts : List (Char × Char)) (idx : Nat)
    (ms : List Nat) (q1 : List Char)
    (h : List.Forall₂
      (fun i c => idx + 1 ≤ i ∧ (ts.get? (i - (idx + 1))).map Prod.snd = some c) ms q1) :
    List.Forall₂
      (fun i c => idx ≤ i ∧ ((pair :: ts).get? (i - idx)).map Prod.snd = some c) ms q1 := by
  refine h.imp ?_
  rintro i c ⟨hle, hget⟩
  refine ⟨by omega, ?_⟩
  have hidx : i - idx = (i - (idx + 1)) + 1 := by omega
  rw [hidx, List.get?_cons_succ]
  exact hget

/-- Positions of the scoring walk: they partition the query into a consumed
part `q1` and the unconsumed remainder, are strictly increasing, stay in
`[idx, idx + |t|)`, and each one selects the matching (lowered) target
character of the corresponding consumed query character. -/
theorem fuzzyWalk_spec :
    ∀ (t : List (Char × Char)) (q : List Char) (idx : Nat) (lastMatch : Int)
      (consec : Nat) (prev : Option Char),
      ∃ q1 : List Char,
        q = q1 ++ (fuzzyWalk q t idx lastMatch consec prev).2.2 ∧
        List.Chain' (· < ·) (fuzzyWalk q t idx lastMatch consec prev).2.1 ∧
        (∀ i ∈ (fuzzyWalk q t idx lastMatch consec prev).2.1,
          idx ≤ i ∧ i < idx + t.length) ∧
        List.Forall₂ (fun i c => idx ≤ i ∧ (t.get? (i - idx)).map Prod.snd = some c)
          (fuzzyWalk q t idx lastMatch consec prev).2.1 q1 := by
  intro t
  induction t with
  | nil =>
    intro q idx lastMatch consec prev
    cases q with
    | nil => exact ⟨[], by simp [fuzzyWalk], by simp [fuzzyWalk],
        by simp [fuzzyWalk], by simp [fuzzyWalk]⟩
    | cons qc qs => exact ⟨[], by simp [fuzzyWalk], by simp [fuzzyWalk],
        by simp [fuzzyWalk], by simp [fuzzyWalk]⟩
  | cons pair ts ih =>
    intro q idx lastMatch consec prev
    cases q with
    | nil =>
      exact ⟨[], by simp [fuzzyWalk], by simp [fuzzyWalk],
        by simp [fuzzyWalk], by simp [fuzzyWalk]⟩
    | cons qc qs =>
      obtain ⟨orig, low⟩ := pair
      by_cases hm : (qc == low) = true
      · obtain ⟨q1', he, hch, hb, hf⟩ := ih qs (idx + 1) (idx : Int)
          (if (lastMatch == (idx : Int) - 1) = true then consec + 1 else 0) (some low)
        have hw : fuzzyWalk (qc :: qs) ((orig, low) :: ts) idx lastMatch consec prev =
            ((1 + (if (lastMatch == (idx : Int) - 1) = true
                then ((consec + 1 : Nat) : ℚ) * (1/2) else 0)
              + (if (match prev with
                  | none => true
                  | some p => !(isAlphanumeric p)) = true then 1 else 0)
              + (if (orig != low) = true then (1/2 : ℚ) else 0))
              + (fuzzyWalk qs ts (idx + 1) (idx : Int)
                (if (lastMatch == (idx : Int) - 1) = true then consec + 1 else 0)
                (some low)).1,
             idx :: (fuzzyWalk qs ts (idx + 1) (idx : Int)
                (if (lastMatch == (idx : Int) - 1) = true then consec + 1 else 0)
                (some low)).2.1,
             (fuzzyWalk qs ts (idx + 1) (idx : Int)
                (if (lastMatch == (idx : Int) - 1) = true then consec + 1 else 0)
                (some low)).2.2) := by
          rw [fuzzyWalk.eq_def]
          simp only [hm, if_true]
        refine ⟨qc :: q1', ?_, ?_, ?_, ?_⟩
        · rw [hw]
          simpa using he
        · rw [hw]
          simp only
          rw [List.chain'_cons']
          refine ⟨?_, hch⟩
          intro y hy
          have hmem : y ∈ _ := List.mem_of_mem_head? hy
          have := (hb y hmem).1
          omega
        · rw [hw]
          simp only [List.mem_cons, List.length_cons]
          rintro i (rfl | hi')
          · omega
          · have := hb i hi'
            omega
        · rw [hw]
          simp only
          refine List.Forall₂.cons ?_ (forall2_pos_shift (orig, low) ts idx _ _ hf)
          refine ⟨le_refl idx, ?_⟩
          simp only [Nat.sub_self, List.get?_cons_zero, Option.map_some']
          exact congrArg some (beq_iff_eq.mp hm).symm
      · have hw : fuzzyWalk (qc :: qs) ((orig, low) :: ts) idx lastMatch consec prev =
            fuzzyWalk (qc :: qs) ts (idx + 1) lastMatch consec (some low) := by
          rw [fuzzyWalk.eq_def]
          simp only [hm, Bool.false_eq_true, if_false]
        obtain ⟨q1', he, hch, hb, hf⟩ := ih (qc :: qs) (idx + 1) lastMatch consec (some low)
        rw [hw]
        refine ⟨q1', he, hch, ?_, forall2_pos_shift (orig, low) ts idx _ _ hf⟩
        intro i hi
        have := hb i hi
        simp only [List.length_cons]
        omega

/-- The second component of `zip` by position, for equal-length lists. -/
theorem zip_get?_snd {α β : Type} :
    ∀ (a : List α) (b : List β), a.length = b.length →
      ∀ i, (((a.zip b).get? i).map Prod.snd) = b.get? i := by
  intro a
  induction a with
  | nil =>
    intro b hb i
    have : b = [] := (List.length_eq_zero).mp hb.symm
    subst this
    simp
  | cons x xs ih =>
    intro b hb i
    cases b with
    | nil => simp at hb
    | cons y ys =>
      cases i with
      | zero => simp
      | succ n =>
        simp only [List.zip_cons_cons, List.get?_cons_succ]
        exact ih ys (by simpa using hb) n

/-- C3 amended: whenever `fuzzyMatchString` returns a match, its positions
form a strictly increasing sequence of indices *into the target string of
that pass* (the filename, path, segment, or symbol-stripped variant — not
necessarily the candidate path, as the counterexample shows), the
(case-normalised) target characters at those positions spell the query
exactly, and there are exactly as many positions as query characters. -/
theorem c3_fuzzyMatchString_invariant (ci : Bool) (query target : String)
    (s : ℚ) (ms : List Nat)
    (h : fuzzyMatchString ci query target = some (s, ms)) :
    List.Chain' (· < ·) ms ∧
    ms.length = query.data.length ∧
    (∀ i ∈ ms, i < target.data.length) ∧
    List.Forall₂
      (fun i c => (if ci then strToLower target else target).data.get? i = some c)
      ms query.data := by
  rw [fuzzyMatchString] at h
  by_cases hq : query.data.isEmpty
  · rw [if_pos hq] at h
    exact absurd h (by simp)
  · rw [if_neg hq] at h
    simp only at h
    obtain ⟨q1, he, hch, hb, hf⟩ := fuzzyWalk_spec
      (List.zip target.data (if ci then strToLower target else target).data)
      query.data 0 (-1) 0 none
    by_cases hqr : (fuzzyWalk query.data
        (List.zip target.data (if ci then strToLower target else target).data)
        0 (-1) 0 none).2.2.isEmpty
    · rw [if_pos hqr] at h
      have hms : ms = (fuzzyWalk query.data
          (List.zip target.data (if ci then strToLower target else target).data)
          0 (-1) 0 none).2.1 := by
        have := congrArg (fun o => Option.map Prod.snd o) h
        simpa using this.symm
      have hq1 : q1 = query.data := by
        have hnil : (fuzzyWalk query.data
            (List.zip target.data (if ci then strToLower target else target).data)
            0 (-1) 0 none).2.2 = [] := by
          simpa [List.isEmpty_iff] using hqr
        rw [hnil, List.append_nil] at he
        exact he.symm
      have hlen : target.data.length =
          (if ci then strToLower target else target).data.length := by
        cases ci <;> simp [strToLower]
      have hziplen : (List.zip target.data
          (if ci then strToLower target else target).data).length =
          target.data.length := by
        simp [List.length_zip, ← hlen]
      subst hms
      refine ⟨hch, ?_, ?_, ?_⟩
      · exact hf.length_eq.trans (by rw [hq1])
      · intro i hi
        have hub := (hb i hi).2
        rw [hziplen] at hub
        omega
      · have hf2 : List.Forall₂
            (fun i c => (if ci then strToLower target else target).data.get? i = some c)
            (fuzzyWalk query.data
              (List.zip target.data (if ci then strToLower target else target).data)
              0 (-1) 0 none).2.1 q1 := by
          refine hf.imp ?_
          rintro i c ⟨_, hget⟩
          rw [Nat.sub_zero, zip_get?_snd _ _ hlen i] at hget
          exact hget
        rw [hq1] at hf2
        exact hf2
    · rw [if_neg hqr] at h
      exact absurd h (by simp)

/-- Witness for `c3_fuzzyMatchString_invariant`: the match of `"ab"`
against `"axb"` at positions `[0, 2]`. -/
theorem c3_fuzzyMatchString_invariant_witness :
    List.Chain' (· < ·) [0, 2] ∧
    ([0, 2] : List Nat).length = "ab".data.length ∧
    (∀ i ∈ ([0, 2] : List Nat), i < "axb".data.length) ∧
    List.Forall₂
      (fun i c => (if true then strToLower "axb" else "axb").data.get? i = some c)
      [0, 2] "ab".data :=
  c3_fuzzyMatchString_invariant true "ab" "axb" (7/6) [0, 2]
    (by simp [fuzzyMatchString, fuzzyWalk, strToLower, isAlphanumeric]; norm_num)

/-! ## Claim C1 — amended narrowing equivalence -/

/-- Every string is a prefix of itself. -/
theorem listLeads_self : ∀ l : List Char, listLeads l l = true := by
  intro l
  induction l with
  | nil => rfl
  | cons c cs ih => simp [listLeads, ih]

/-- A stable sort of an already score-descending list is the identity. -/
theorem sortByScoreDesc_of_chain :
    ∀ l : List FuzzyMatch, List.Chain' ScoreDesc l → sortByScoreDesc l = l := by
  intro l
  induction l with
  | nil => intro _; rfl
  | cons x xs ih =>
    intro h
    rw [sortByScoreDesc, ih h.tail]
    cases xs with
    | nil => rfl
    | cons y ys =>
      have hxy : y.score ≤ x.score := (List.chain'_cons.mp h).1
      rw [insertByScoreDesc, if_pos hxy]

/-- Keeping exactly the candidates the matcher accepts does not change a
`filterMap` of that matcher. -/
theorem filterMap_filter_isSome {α β : Type} (f : α → Option β) :
    ∀ l : List α, (l.filter (fun a => (f a).isSome)).filterMap f = l.filterMap f := by
  intro l
  induction l with
  | nil => rfl
  | cons x xs ih =>
    by_cases hx : (f x).isSome
    · obtain ⟨b, hb⟩ := Option.isSome_iff_exists.mp hx
      simp [List.filter_cons, hx, List.filterMap_cons, hb, ih]
    · have hnone : f x = none := Option.not_isSome_iff_eq_none.mp hx
      simp [List.filter_cons, hx, List.filterMap_cons, hnone, ih]

/-- Insertion adds exactly the inserted element. -/
theorem mem_insertByScoreDesc {a m : FuzzyMatch} :
    ∀ {l : List FuzzyMatch}, a ∈ insertByScoreDesc m l ↔ a = m ∨ a ∈ l := by
  intro l
  induction l with
  | nil => simp [insertByScoreDesc]
  | cons x xs ih =>
    rw [insertByScoreDesc]
    split
    · simp
    · simp only [List.mem_cons, ih]
      tauto

/-- Sorting permutes: membership is unchanged. -/
theorem mem_sortByScoreDesc {a : FuzzyMatch} :
    ∀ {l : List FuzzyMatch}, a ∈ sortByScoreDesc l ↔ a ∈ l := by
  intro l
  induction l with
  | nil => simp [sortByScoreDesc]
  | cons x xs ih =>
    rw [sortByScoreDesc]
    rw [mem_insertByScoreDesc]
    simp [ih]

/-- Both matchers build their result as a guarded literal with the
candidate path; whatever the guard, a returned match carries it. -/
theorem ite_some_path {p : String} {m : FuzzyMatch}
    (c : Prop) [Decidable c] (s : ℚ) (ms : List Nat)
    (hh : (if c then some (⟨p, s, ms⟩ : FuzzyMatch) else none) = some m) :
    m.path = p := by
  split at hh
  · exact (Option.some.inj hh) ▸ rfl
  · exact Option.noConfusion hh

/-- The `fuzzyMatch` reports the candidate it was given. -/
theorem fuzzyMatch_path {ci : Bool} {q p : String} {m : FuzzyMatch}
    (h : fuzzyMatch ci q p = some m) : m.path = p := by
  simp only [fuzzyMatch] at h
  exact ite_some_path _ _ _ h

/-- The `fuzzyMatchNormalized` reports the candidate it was given. -/
theorem fuzzyMatchNormalized_path {ci : Bool} {nq p : String} {m : FuzzyMatch}
    (h : fuzzyMatchNormalized ci nq p = some m) : m.path = p := by
  by_cases hnq : nq.data.isEmpty
  · simp only [fuzzyMatchNormalized] at h
    rw [if_pos hnq] at h
    exact Option.noConfusion h
  · simp only [fuzzyMatchNormalized] at h
    rw [if_neg hnq] at h
    exact ite_some_path _ _ _ h

/-- The combined matcher reports the candidate it was given. -/
theorem searchOne_path {ci : Bool} {sq nq p : String} {m : FuzzyMatch}
    (h : searchOne ci sq nq p = some m) : m.path = p := by
  unfold searchOne at h
  cases hf : fuzzyMatch ci sq p with
  | none =>
    cases hn : fuzzyMatchNormalized ci nq p with
    | none => rw [hf, hn] at h; cases h
    | some nm =>
      rw [hf, hn] at h
      simp only [pickBest] at h
      exact (Option.some.inj h) ▸ fuzzyMatchNormalized_path hn
  | some fm =>
    cases hn : fuzzyMatchNormalized ci nq p with
    | none =>
      rw [hf, hn] at h
      simp only [pickBest] at h
      exact (Option.some.inj h) ▸ fuzzyMatch_path hf
    | some nm =>
      rw [hf, hn] at h
      simp only [pickBest] at h
      split at h
      · exact (Option.some.inj h) ▸ fuzzyMatchNormalized_path hn
      · exact (Option.some.inj h) ▸ fuzzyMatch_path hf

/-- The path of every search result is one of the candidates. -/
theorem mem_fuzzySearch_path {ci : Bool} {q : String} {paths : List String}
    {k : Nat} {m : FuzzyMatch} (h : m ∈ fuzzySearch ci q paths k) :
    m.path ∈ paths := by
  rw [fuzzySearch] at h
  split at h
  · obtain ⟨p, hp, rfl⟩ := List.mem_map.mp h
    exact List.mem_of_mem_take hp
  · have h1 := List.mem_of_mem_take h
    have h2 := mem_sortByScoreDesc.mp h1
    obtain ⟨p, hp, hsome⟩ := List.mem_filterMap.mp h2
    exact (searchOne_path hsome) ▸ hp

/-- Unfold the nonempty-query branch of the search. -/
theorem fuzzySearch_eq_of_ne_empty (q : String) (P : List String) (k : Nat)
    (hq : q.data.isEmpty = false) :
    fuzzySearch true q P k =
      (sortByScoreDesc (P.filterMap
        (searchOne true (strToLower q) (normalizeForSearch (strToLower q))))).take k := by
  rw [fuzzySearch]
  have hne : ¬ (q.data.isEmpty = true) := by rw [hq]; exact Bool.false_ne_true
  rw [if_neg hne]
  rfl

/-- Restricting the candidate list to those the per-path matcher accepts
does not change the search result. -/
theorem fuzzySearch_filter_matching (q : String) (P : List String) (k : Nat)
    (hq : q.data.isEmpty = false) :
    fuzzySearch true q
      (P.filter (fun p =>
        (searchOne true (strToLower q) (normalizeForSearch (strToLower q)) p).isSome)) k =
    fuzzySearch true q P k := by
  rw [fuzzySearch_eq_of_ne_empty _ _ _ hq, fuzzySearch_eq_of_ne_empty _ _ _ hq,
    filterMap_filter_isSome]

/-- C1 amended: narrowing through the query cache agrees with the fresh
search restricted to the cached paths in paths, scores and order —
*provided* every cached path has file-type weight 1 (no recognised
extension). In general they differ, because the narrowing branch skips the
file-type weighting step (see the counterexample). Stated for a cache
holding an entry for the query itself; the query must be nonempty (an empty query
bypasses the matcher entirely). -/
theorem c1_narrow_matches_fresh_modulo_weights (q : String) (R : List FuzzyMatch)
    (files : List String) (k : Nat)
    (hq : q.data ≠ [])
    (hw : ∀ m ∈ R, getFileTypeWeight m.path = 1) :
    getMatchingFiles q false [(q, R)] files k =
      freshSearchOn q (R.map (fun m => m.path)) k := by
  have hqe : q.data.isEmpty = false := by
    cases hd : q.data with
    | nil => exact absurd hd hq
    | cons a t => rfl
  have hcache : getCachedResults [(q, R)] q = some R := by
    simp [getCachedResults, strLeads, listLeads_self]
  have hfilter : (filterCachedResults R q).map (fun m => m.path) =
      (R.map (fun m => m.path)).filter
        (fun p =>
          (searchOne true (strToLower q) (normalizeForSearch (strToLower q)) p).isSome) := by
    simp only [filterCachedResults]
    rw [List.filter_map (fun m : FuzzyMatch => m.path)]
    rfl
  have hLHS : getMatchingFiles q false [(q, R)] files k =
      fuzzySearch true q (R.map (fun m => m.path)) k := by
    simp only [getMatchingFiles, hcache]
    rw [hfilter, fuzzySearch_filter_matching q _ k hqe]
  rw [hLHS]
  have hnone : getCachedResults [] q = none := rfl
  simp only [freshSearchOn, getMatchingFiles, hnone, Bool.false_eq_true, if_false]
  by_cases hP : (R.map (fun m => m.path)).isEmpty
  · have hPnil : R.map (fun m => m.path) = [] := by simpa [List.isEmpty_iff] using hP
    rw [if_pos hP, hPnil, fuzzySearch_eq_of_ne_empty _ _ _ hqe]
    simp
    exact Or.inr rfl
  · rw [if_neg hP]
    have hms : fuzzySearch true q (R.map (fun m => m.path)) (k * 2) =
        (sortByScoreDesc
          ((R.map (fun m => m.path)).filterMap
            (searchOne true (strToLower q) (normalizeForSearch (strToLower q))))).take
          (k * 2) := fuzzySearch_eq_of_ne_empty _ _ _ hqe
    have hsortedms : List.Chain' ScoreDesc
        (fuzzySearch true q (R.map (fun m => m.path)) (k * 2)) := by
      rw [hms]
      exact (sortByScoreDesc_chain _).take _
    have hweights : (fuzzySearch true q (R.map (fun m => m.path)) (k * 2)).map
        (fun m => (⟨m.path, m.score * getFileTypeWeight m.path, m.positions⟩ : FuzzyMatch)) =
        fuzzySearch true q (R.map (fun m => m.path)) (k * 2) := by
      have hcongr : ∀ m ∈ fuzzySearch true q (R.map (fun mm => mm.path)) (k * 2),
          (⟨m.path, m.score * getFileTypeWeight m.path, m.positions⟩ : FuzzyMatch) = m := by
        intro m hm
        have hpmem := mem_fuzzySearch_path hm
        obtain ⟨m', hm', hpeq⟩ := List.mem_map.mp hpmem
        have hw1 : getFileTypeWeight m.path = 1 := by
          rw [← hpeq]
          exact hw m' hm'
        rw [hw1, mul_one]
      calc (fuzzySearch true q (R.map (fun m => m.path)) (k * 2)).map
            (fun m => (⟨m.path, m.score * getFileTypeWeight m.path, m.positions⟩ : FuzzyMatch))
          = (fuzzySearch true q (R.map (fun m => m.path)) (k * 2)).map id :=
            List.map_congr_left hcongr
        _ = _ := List.map_id _
    rw [hweights, sortByScoreDesc_of_chain _ hsortedms, hms, List.take_take,
      Nat.min_eq_left (by omega)]
    exact fuzzySearch_eq_of_ne_empty _ _ _ hqe

/-- Witness for `c1_narrow_matches_fresh_modulo_weights`: an
extension-free cached path. -/
theorem c1_narrow_matches_fresh_modulo_weights_witness :
    getMatchingFiles "abc" false [("abc", [⟨"abc", 0, []⟩])] [] 5 =
      freshSearchOn "abc" ([(⟨"abc", 0, []⟩ : FuzzyMatch)].map (fun m => m.path)) 5 :=
  c1_narrow_matches_fresh_modulo_weights "abc" [⟨"abc", 0, []⟩] [] 5 (by decide)
    (by
      intro m hm
      simp only [List.mem_singleton] at hm
      subst hm
      simp [getFileTypeWeight, extName, baseName, strSplitOnPred, splitChars, strToLower])



